import Mathlib

/-!
Verification development for the CoTrip traffic-camera harvesting pipeline
(`projects/colorado-traffic-cameras/cotrip.py`).

The pipeline's four components are shallowly embedded here:

* `post_json_with_retries` — the resilient request client, modelled over an
  oracle `Nat → HttpOutcome` giving the outcome of each numbered attempt
  (attempt numbers start at 1, matching `range(1, max_attempts + 1)`).
* `fetch_all_camera_views_hls` — the paginated view harvester, modelled over
  an oracle `Int → ViewsResp` mapping a record offset to the parsed response
  of the page request at that offset.
* `fetch_all_cameras_with_coords` — the cluster-expansion frontier, modelled
  over a stub `Region → Int → List MapFeature` standing for the
  `mapFeatures` list returned by `fetch_mapfeatures_batch`.
* `uri_key` and the merge stage's stable sort.

Numbers: Python floats are modelled as exact rationals (`Rat`); Python ints
as `Int`.  JSON dictionaries are modelled as typed structures with `Option`
fields for keys that may be absent (`dict.get`); Python truthiness of a
string value (`if not uri`) is `truthyStr`.  Loops are modelled with
explicit fuel; termination is then a theorem, not an assumption.
-/

namespace Cotrip

/-- Python's `pat in s` substring test, on character lists. -/
def infixChars (p : List Char) : List Char → Bool
  | [] => p.isEmpty
  | c :: rest => p.isPrefixOf (c :: rest) || infixChars p rest

/-- Python's `pat in s` substring test on strings. -/
def containsSub (s pat : String) : Bool :=
  infixChars pat.toList s.toList

/-- The transient-fault marker substring matched by the client. -/
def serverErrorMarker : String := "Server error"

/-- One element of a GraphQL `errors` array: an object with an optional
`message` key (`errors[0].get("message", "")`). -/
structure ErrEntry where
  message : Option String
deriving DecidableEq

/-- A parsed JSON response element as inspected by `has_server_error`:
either a dict, whose `errors` key is modelled as a list (absent or falsy
`errors` is the empty list), or a non-dict value. -/
inductive RespItem where
  | dict (errors : List ErrEntry)
  | nondict
deriving DecidableEq

/-- A parsed JSON response body: a single value, or a batch list. -/
inductive Resp where
  | single (item : RespItem)
  | batch (items : List RespItem)
deriving DecidableEq

/-- `has_server_error` (cotrip.py line 91): a dict with a truthy `errors`
array whose first message contains the marker substring. -/
def has_server_error (obj : RespItem) : Bool :=
  match obj with
  | .dict [] => false
  | .dict (e :: _) => containsSub (e.message.getD "") serverErrorMarker
  | .nondict => false

/-- The transient test applied to parsed response data (lines 97-101):
a batch list is transient when some element is, a single value when it is. -/
def serverErrorIn (data : Resp) : Bool :=
  match data with
  | .batch xs => xs.any has_server_error
  | .single x => has_server_error x

/-- Outcome of one HTTP attempt: parsed JSON, an HTTP error response with
status code and decoded body, or any other exception with its message. -/
inductive HttpOutcome where
  | success (data : Resp)
  | httpError (code : Int) (body : String)
  | exn (msg : String)
deriving DecidableEq

/-- How `post_json_with_retries` fails: a fatal HTTP error (line 116), or
retries exhausted carrying the last observed error text (line 126). -/
inductive PostErr where
  | fatalHttp (msg : String)
  | exhausted (last : Option String)
deriving DecidableEq

/-- The retry loop of `post_json_with_retries` (lines 83-126).  `fuel` is
the number of attempts still allowed, `idx` the 1-based number of the next
attempt, `last` the `last_text` accumulator.  Returns the result together
with the number of request attempts actually performed.  Sleeps are
dropped (timing is not modelled). -/
def goPost (url : String) (oracle : Nat → HttpOutcome) :
    Nat → Nat → Option String → Except PostErr Resp × Nat
  | 0, _, last => (.error (.exhausted last), 0)
  | fuel + 1, idx, _ =>
    match oracle idx with
    | .success data =>
      if serverErrorIn data then
        -- `raise RuntimeError("Server error.")` is caught by the generic
        -- `except Exception` handler: retry with last_text = "Server error."
        let r := goPost url oracle fuel (idx + 1) (some "Server error.")
        (r.1, r.2 + 1)
      else
        (.ok data, 1)
    | .httpError code body =>
      let lt := "HTTP " ++ toString code ++ ": " ++ body
      if containsSub body serverErrorMarker then
        let r := goPost url oracle fuel (idx + 1) (some lt)
        (r.1, r.2 + 1)
      else
        (.error (.fatalHttp ("HTTP error from " ++ url ++ ": " ++ lt)), 1)
    | .exn msg =>
      let r := goPost url oracle fuel (idx + 1) (some msg)
      (r.1, r.2 + 1)

/-- `post_json_with_retries` (line 65): run the attempt loop from attempt 1
with no recorded error text.  The reference default for `max_attempts`
is 8. -/
def post_json_with_retries (url : String) (oracle : Nat → HttpOutcome)
    (max_attempts : Nat) : Except PostErr Resp × Nat :=
  goPost url oracle max_attempts 1 none

/-- An attempt outcome the client classifies as transient (retryable). -/
def transientOutcome (o : HttpOutcome) : Bool :=
  match o with
  | .success d => serverErrorIn d
  | .httpError _ body => containsSub body serverErrorMarker
  | .exn _ => true

/-- The `last_text` recorded after a transient attempt with this outcome. -/
def lastTextFor (o : HttpOutcome) : String :=
  match o with
  | .success _ => "Server error."
  | .httpError code body => "HTTP " ++ toString code ++ ": " ++ body
  | .exn msg => msg

/-- Python truthiness of an optional string: `None` and `""` are falsy. -/
def truthyStr : Option String → Bool
  | none => false
  | some s => !(s == "")

/-! ## Paginated view harvester (`fetch_all_camera_views_hls`, lines 129-188) -/

/-- The HLS MIME type kept by the harvester. -/
def HLS_MIME : String := "application/x-mpegURL"

/-- One entry of a view's `sources` list: optional `type` and `src` keys. -/
structure ViewSource where
  type : Option String
  src : Option String
deriving DecidableEq

/-- One camera view row: `parentCollection.uri` (absent or empty modelled by
`Option`/truthiness) and its `sources` list (`v.get("sources") or []`). -/
structure ViewRow where
  parentUri : Option String
  sources : List ViewSource
deriving DecidableEq

/-- The parsed response of one page request: top-level GraphQL `errors`
(truthy value carried as a message), the query-level `error` object, the
`cameraViews` rows (`data.get("cameraViews") or []`) and `totalRecords`. -/
structure ViewsResp where
  errors : Option String
  dataError : Option String
  cameraViews : List ViewRow
  totalRecords : Int
deriving DecidableEq

/-- A kept media source: `{"type": ..., "src": ...}`. -/
structure MediaSource where
  type : String
  src : String
deriving DecidableEq

/-- The harvester's accumulator `hls_by_camera`, an insertion-ordered map
from camera uri to its media-source list. -/
abbrev HlsMap : Type := List (String × List MediaSource)

/-- Append a source to a camera's list unless one with an identical `src`
string is already present (lines 178-179). -/
def addSource (srcs : List MediaSource) (t u : String) : List MediaSource :=
  if srcs.any (fun x => x.src == u) then srcs else srcs ++ [⟨t, u⟩]

/-- `hls_by_camera.setdefault(cam_uri, [])` followed by the guarded append:
update the camera's entry in place, or create it at the end. -/
def hlsAdd (m : HlsMap) (k t u : String) : HlsMap :=
  match m with
  | [] => [(k, addSource [] t u)]
  | (k₂, v) :: rest =>
    if k₂ == k then (k₂, addSource v t u) :: rest else (k₂, v) :: hlsAdd rest k t u

/-- Process one element of a view's `sources` list (lines 175-179): keep it
only when its `type` equals the HLS MIME type and its `src` is truthy. -/
def processSource (m : HlsMap) (camUri : String) (s : ViewSource) : HlsMap :=
  match s.type, s.src with
  | some t, some u => if t == HLS_MIME && !(u == "") then hlsAdd m camUri t u else m
  | _, _ => m

/-- Process one camera view row (lines 169-179): skip rows without a truthy
parent-collection uri, then fold over its sources. -/
def processRow (m : HlsMap) (v : ViewRow) : HlsMap :=
  if truthyStr v.parentUri then
    v.sources.foldl (fun acc s => processSource acc (v.parentUri.getD "") s) m
  else m

/-- Process one page's rows in order. -/
def processRows (m : HlsMap) (rows : List ViewRow) : HlsMap :=
  rows.foldl processRow m

/-- The pagination loop (lines 138-185).  `oracle` maps a record offset to
the parsed page response; `total` is `None` until the first page fixes it;
the returned `List Int` logs the offsets of the issued page requests.
`none` means the fuel ran out; `some (.error e)` models the raised
`RuntimeError`. -/
def goHarvest (oracle : Int → ViewsResp) (limit : Int) :
    Nat → Int → Option Int → HlsMap → List Int → Option (Except String (HlsMap × List Int))
  | 0, _, _, _, _ => none
  | fuel + 1, offset, total, acc, log =>
    let resp := oracle offset
    let log₂ := log ++ [offset]
    match resp.errors with
    | some e => some (.error e)
    | none =>
      match resp.dataError with
      | some e => some (.error e)
      | none =>
        let total₂ : Int := match total with | none => resp.totalRecords | some t => t
        let rows := resp.cameraViews
        let acc₂ := processRows acc rows
        if rows.isEmpty || decide (total₂ ≤ offset + limit) then some (.ok (acc₂, log₂))
        else goHarvest oracle limit fuel (offset + limit) (some total₂) acc₂ log₂

/-- `fetch_all_camera_views_hls` (line 129): run the pagination loop from
offset 0 with no recorded total. -/
def fetch_all_camera_views_hls (oracle : Int → ViewsResp) (limit : Int)
    (fuel : Nat) : Option (Except String (HlsMap × List Int)) :=
  goHarvest oracle limit fuel 0 none [] []

/-! ## Cluster-expansion frontier (`fetch_all_cameras_with_coords`, lines 235-294) -/

/-- A query region: `dict(west=..., south=..., east=..., north=...)`. -/
structure Region where
  west : Rat
  south : Rat
  east : Rat
  north : Rat
deriving DecidableEq

/-- `CO_BBOX` (line 13). -/
def CO_BBOX : Region :=
  { west := -109.0603, south := 36.9924, east := -102.0415, north := 41.0034 }

/-- A GeoJSON geometry: `{type, coordinates}`. -/
structure Geometry where
  type : String
  coordinates : List Rat
deriving DecidableEq

/-- A GeoJSON sub-feature with an optional geometry (`f.get("geometry")`). -/
structure GeoFeature where
  geometry : Option Geometry
deriving DecidableEq

/-- `extract_lon_lat_from_features` (line 191): first point geometry with at
least two coordinates wins; otherwise keep scanning; `(None, None)` if no
feature qualifies. -/
def extract_lon_lat_from_features : List GeoFeature → Option Rat × Option Rat
  | [] => (none, none)
  | f :: rest =>
    match f.geometry with
    | some g =>
      if g.type == "Point" then
        match g.coordinates with
        | c₀ :: c₁ :: _ => (some c₀, some c₁)
        | _ => extract_lon_lat_from_features rest
      else extract_lon_lat_from_features rest
    | none => extract_lon_lat_from_features rest

/-- One element of the `mapFeatures` result, keyed by `__typename`: a
`Camera` (uri, title, active, sub-features), a `Cluster` (a `bbox` that is
a list when usable, `none` when absent or not a list, and an optional
integer `maxZoom`), or any other typename (ignored by the loop). -/
inductive MapFeature where
  | camera (uri : Option String) (title : Option String) (active : Option Bool)
      (features : List GeoFeature)
  | cluster (bbox : Option (List Rat)) (maxZoom : Option Int)
  | otherFeature
deriving DecidableEq

/-- The partial camera record built at line 270. -/
structure CameraRec where
  uri : String
  title : Option String
  active : Option Bool
  lon : Option Rat
  lat : Option Rat
deriving DecidableEq

/-- Python dict assignment `cameras[uri] = rec`: replace in place if the
key exists (insertion order kept), else append. -/
def upsert (cams : List (String × CameraRec)) (k : String) (v : CameraRec) :
    List (String × CameraRec) :=
  match cams with
  | [] => [(k, v)]
  | (k₂, v₂) :: rest =>
    if k₂ == k then (k₂, v) :: rest else (k₂, v₂) :: upsert rest k v

/-- Process one `Camera` feature (lines 264-276): skip when the uri is
falsy, else store/overwrite its record. -/
def recordCamera (cams : List (String × CameraRec)) (f : MapFeature) :
    List (String × CameraRec) :=
  match f with
  | .camera uri title active gfeats =>
    if truthyStr uri then
      let u := uri.getD ""
      let ll := extract_lon_lat_from_features gfeats
      upsert cams u { uri := u, title := title, active := active, lon := ll.1, lat := ll.2 }
    else cams
  | _ => cams

/-- Record every camera feature of a response, in order. -/
def recordCameras (cams : List (String × CameraRec)) (feats : List MapFeature) :
    List (String × CameraRec) :=
  feats.foldl recordCamera cams

/-- The next zoom computed for a cluster (lines 282-286): start from
`zoom + 1`, take the cluster's `maxZoom` when it is an integer strictly
above that, then cap at the global `max_zoom`. -/
def nextZoomOf (max_zoom zoom : Int) (mz : Option Int) : Int :=
  let nz := zoom + 1
  let nz₂ := match mz with
    | some k => if nz < k then k else nz
    | none => nz
  min nz₂ max_zoom

/-- The job a single `Cluster` feature enqueues, if any (lines 277-289):
`none` when the bbox is not a four-element list, or when the capped next
zoom makes no progress. -/
def clusterChild (max_zoom zoom : Int) (f : MapFeature) : Option (Region × Int) :=
  match f with
  | .cluster (some [w, s, e, n]) mz =>
    let nz := nextZoomOf max_zoom zoom mz
    if nz ≤ zoom then none
    else some ({ west := w, south := s, east := e, north := n }, nz)
  | _ => none

/-- All jobs enqueued by one response's cluster features, in order. -/
def clusterChildren (max_zoom zoom : Int) (feats : List MapFeature) :
    List (Region × Int) :=
  feats.filterMap (clusterChild max_zoom zoom)

/-- The dedup key of a job (line 252): each coordinate rounded to 6 decimal
places, plus the zoom.  `round6` models Python's `round(x, 6)` on exact
rationals (round half to even). -/
def pyRound (x : Rat) : Int :=
  let n := ⌊x⌋
  let frac := x - n
  if frac < 1 / 2 then n
  else if 1 / 2 < frac then n + 1
  else if n % 2 = 0 then n else n + 1

/-- `round(x, 6)` on exact rationals. -/
def round6 (x : Rat) : Rat :=
  (pyRound (x * 1000000) : Rat) / 1000000

/-- The 5-tuple `job_key` of line 252. -/
def jobKeyOf (j : Region × Int) : Rat × Rat × Rat × Rat × Int :=
  (round6 j.1.west, round6 j.1.south, round6 j.1.east, round6 j.1.north, j.2)

/-- The frontier's state: the camera map, the pending deque (head is the
`popleft` end), the `seen_cluster_jobs` set, and a log of the (region,
zoom) pairs for which `fetch_mapfeatures_batch` was actually called. -/
structure FrontierState where
  cameras : List (String × CameraRec)
  queue : List (Region × Int)
  seen : List (Rat × Rat × Rat × Rat × Int)
  queries : List (Region × Int)
deriving DecidableEq

/-- One iteration of the `while q:` loop (lines 250-292): pop the head job;
if its key was seen, discard it; otherwise mark it seen, issue the query,
record cameras and append the cluster children to the queue.  On an empty
queue the state is returned unchanged. -/
def stepFrontier (fetch : Region → Int → List MapFeature) (max_zoom : Int)
    (st : FrontierState) : FrontierState :=
  match st.queue with
  | [] => st
  | (bbox, zoom) :: rest =>
    let key := jobKeyOf (bbox, zoom)
    if key ∈ st.seen then { st with queue := rest }
    else
      let feats := fetch bbox zoom
      { cameras := recordCameras st.cameras feats
        queue := rest ++ clusterChildren max_zoom zoom feats
        seen := key :: st.seen
        queries := st.queries ++ [(bbox, zoom)] }

/-- Iterate `stepFrontier`. -/
def stepN (fetch : Region → Int → List MapFeature) (max_zoom : Int) :
    Nat → FrontierState → FrontierState
  | 0, st => st
  | n + 1, st => stepN fetch max_zoom n (stepFrontier fetch max_zoom st)

/-- The initial state (lines 243-248): one job `(CO_BBOX, start_zoom)`. -/
def initFrontier (start_zoom : Int) : FrontierState :=
  { cameras := [], queue := [(CO_BBOX, start_zoom)], seen := [], queries := [] }

/-- Run the frontier loop with the given fuel; `some` is reached exactly
when the queue empties within the fuel. -/
def runFrontier (fetch : Region → Int → List MapFeature) (max_zoom : Int) :
    Nat → FrontierState → Option FrontierState
  | 0, st => if st.queue = [] then some st else none
  | fuel + 1, st =>
    if st.queue = [] then some st
    else runFrontier fetch max_zoom fuel (stepFrontier fetch max_zoom st)

/-- `fetch_all_cameras_with_coords` (line 235), over a stubbed upstream. -/
def fetch_all_cameras_with_coords (fetch : Region → Int → List MapFeature)
    (start_zoom max_zoom : Int) (fuel : Nat) : Option FrontierState :=
  runFrontier fetch max_zoom fuel (initFrontier start_zoom)

/-! ## Merge stage ordering (`uri_key`, lines 305-312) -/

/-- Value of a nonempty all-digit character run, `none` otherwise. -/
def digitsVal (cs : List Char) : Option Nat :=
  if cs.isEmpty then none
  else if cs.all (fun c => c.isDigit) then
    some (cs.foldl (fun acc c => acc * 10 + (c.toNat - 48)) 0)
  else none

/-- Strip leading and trailing whitespace from a character list. -/
def trimWs (cs : List Char) : List Char :=
  ((cs.dropWhile Char.isWhitespace).reverse.dropWhile Char.isWhitespace).reverse

/-- Model of Python `int(s)` on strings: surrounding whitespace stripped,
one optional sign, then a nonempty digit run (digit-grouping underscores
and non-ASCII digits are not modelled). -/
def pyInt (s : String) : Option Int :=
  match trimWs s.toList with
  | '-' :: rest => (digitsVal rest).map (fun n => -(n : Int))
  | '+' :: rest => (digitsVal rest).map (fun n => (n : Int))
  | cs => (digitsVal cs).map (fun n => (n : Int))

/-- Python's `s.split(sep)` for a one-character separator. -/
def splitOnChar (sep : Char) : List Char → List (List Char)
  | [] => [[]]
  | c :: rest =>
    if c = sep then [] :: splitOnChar sep rest
    else
      match splitOnChar sep rest with
      | g :: gs => (c :: g) :: gs
      | [] => [[c]]

/-- `int(u.split("/")[1])` when it succeeds: both a missing second segment
(IndexError) and a failed parse (ValueError) give `none`. -/
def uriNum (u : String) : Option Int :=
  match (splitOnChar '/' u.toList).get? 1 with
  | some seg => pyInt (String.mk seg)
  | none => none

/-- `uri_key` (line 305): sort key `(numeric second segment, uri)`, with
the sentinel `10^18` when the parse fails. -/
def uri_key (u : String) : Int × String :=
  match uriNum u with
  | some k => (k, u)
  | none => (10 ^ 18, u)

/-- Python string `<=`: lexicographic by code point. -/
def charListLe : List Char → List Char → Bool
  | [], _ => true
  | _ :: _, [] => false
  | a :: as, b :: bs => if a < b then true else if b < a then false else charListLe as bs

/-- Lexicographic comparison of Python key tuples `(int, str)`. -/
def keyLE (a b : Int × String) : Bool :=
  a.1 < b.1 || (a.1 == b.1 && charListLe a.2.toList b.2.toList)

/-- Stable insertion of `a` into a sorted list: `a` goes before the first
element it compares `≤` to, so earlier-arrived equals stay first. -/
def insertSorted (le : α → α → Bool) (a : α) : List α → List α
  | [] => [a]
  | b :: bs => if le a b then a :: b :: bs else b :: insertSorted le a bs

/-- Stable sort by `le` (insertion sort, folding from the right so the
original order of equal keys is preserved) — a model of Python's stable
`list.sort(key=uri_key)`. -/
def stableSortBy (le : α → α → Bool) (l : List α) : List α :=
  l.foldr (insertSorted le) []

/-- The merge stage's `merged.sort(key=uri_key)`, on the records' uris. -/
def sortRecords (l : List String) : List String :=
  stableSortBy (fun a b => keyLE (uri_key a) (uri_key b)) l

/-! ## Lemmas about cluster expansion -/

theorem nextZoomOf_eq (max_zoom zoom : Int) (mz : Option Int) :
    nextZoomOf max_zoom zoom mz = min (max (zoom + 1) (mz.getD (zoom + 1))) max_zoom := by
  cases mz with
  | none => simp [nextZoomOf]
  | some k =>
    simp only [nextZoomOf, Option.getD_some]
    rcases le_or_lt k (zoom + 1) with h | h
    · rw [if_neg (by omega), max_eq_left h]
    · rw [if_pos h, max_eq_right (le_of_lt h)]

theorem nextZoomOf_le (max_zoom zoom : Int) (mz : Option Int) :
    nextZoomOf max_zoom zoom mz ≤ max_zoom := by
  rw [nextZoomOf_eq]; exact min_le_right _ _

theorem clusterChild_eq_some {max_zoom zoom : Int} {f : MapFeature} {c : Region × Int}
    (h : clusterChild max_zoom zoom f = some c) :
    zoom < c.2 ∧ c.2 ≤ max_zoom := by
  cases f with
  | camera u t a g => simp [clusterChild] at h
  | otherFeature => simp [clusterChild] at h
  | cluster bb mz =>
    cases bb with
    | none => simp [clusterChild] at h
    | some l =>
      match l with
      | [] => simp [clusterChild] at h
      | [w] => simp [clusterChild] at h
      | [w, s] => simp [clusterChild] at h
      | [w, s, e] => simp [clusterChild] at h
      | w :: s :: e :: n :: x :: rest => simp [clusterChild] at h
      | [w, s, e, n] =>
        simp only [clusterChild] at h
        split at h
        · exact absurd h (by simp)
        · rename_i hz
          obtain rfl : c = ({ west := w, south := s, east := e, north := n }, nextZoomOf max_zoom zoom mz) := by
            exact (Option.some_inj.mp h).symm
          exact ⟨by omega, nextZoomOf_le _ _ _⟩

theorem mem_clusterChildren {max_zoom zoom : Int} {feats : List MapFeature}
    {c : Region × Int} (h : c ∈ clusterChildren max_zoom zoom feats) :
    zoom < c.2 ∧ c.2 ≤ max_zoom := by
  obtain ⟨f, _, hf⟩ := List.mem_filterMap.mp h
  exact clusterChild_eq_some hf

theorem clusterChildren_nil_of_le {max_zoom zoom : Int} (h : max_zoom ≤ zoom)
    (feats : List MapFeature) : clusterChildren max_zoom zoom feats = [] := by
  rw [clusterChildren, List.filterMap_eq_nil_iff]
  intro f _
  cases hc : clusterChild max_zoom zoom f with
  | none => rfl
  | some c =>
    have := clusterChild_eq_some hc
    omega

theorem clusterChildren_cons_cluster (max_zoom zoom : Int) (bb : Option (List Rat))
    (mz : Option Int) (rest : List MapFeature)
    (h : nextZoomOf max_zoom zoom mz ≤ zoom) :
    clusterChildren max_zoom zoom (.cluster bb mz :: rest) =
      clusterChildren max_zoom zoom rest := by
  rw [clusterChildren, List.filterMap_cons, clusterChildren]
  have : clusterChild max_zoom zoom (.cluster bb mz) = none := by
    cases bb with
    | none => rfl
    | some l =>
      match l with
      | [] => rfl
      | [w] => rfl
      | [w, s] => rfl
      | [w, s, e] => rfl
      | w :: s :: e :: n :: x :: r => rfl
      | [w, s, e, n] => simp only [clusterChild]; rw [if_pos h]
  rw [this]

/-- C3: every job the frontier enqueues while processing a parent job at
`zoom` has a strictly greater zoom than `zoom`; and a cluster whose
computed next zoom does not exceed the parent zoom is dropped — it
contributes nothing to the enqueued children. -/
theorem c3_monotonic_progress :
    (∀ (fetch : Region → Int → List MapFeature) (max_zoom : Int)
        (st : FrontierState) (bbox : Region) (zoom : Int)
        (rest : List (Region × Int)) (c : Region × Int),
        st.queue = (bbox, zoom) :: rest →
        c ∈ (stepFrontier fetch max_zoom st).queue → c ∉ rest → zoom < c.2) ∧
    (∀ (max_zoom zoom : Int) (bb : Option (List Rat)) (mz : Option Int)
        (rest : List MapFeature),
        nextZoomOf max_zoom zoom mz ≤ zoom →
        clusterChildren max_zoom zoom (.cluster bb mz :: rest) =
          clusterChildren max_zoom zoom rest) := by
  constructor
  · intro fetch max_zoom st bbox zoom rest c hq hmem hnot
    obtain ⟨cams, q, seen, queries⟩ := st
    simp only at hq
    subst hq
    simp only [stepFrontier] at hmem
    split at hmem
    · exact absurd hmem hnot
    · rcases List.mem_append.mp hmem with h | h
      · exact absurd h hnot
      · exact (mem_clusterChildren h).1
  · intro max_zoom zoom bb mz rest h
    exact clusterChildren_cons_cluster max_zoom zoom bb mz rest h

/-- Witness for C3 at concrete inputs: a cluster seen at zoom 3 with cap 16
enqueues zoom 4 > 3; with cap 3 at zoom 5 the cluster is dropped. -/
theorem c3_monotonic_progress_witness :
    (3 : Int) < (({ west := (5 : Rat), south := 6, east := 7, north := 8 }, (4 : Int)) : Region × Int).2 ∧
    clusterChildren 3 5 [.cluster (some [1, 2, 3, 4]) none] = clusterChildren 3 5 [] :=
  ⟨c3_monotonic_progress.1 (fun _ _ => [.cluster (some [5, 6, 7, 8]) none]) 16
      { cameras := [], queue := [({ west := 1, south := 2, east := 3, north := 4 }, 3)],
        seen := [], queries := [] }
      { west := 1, south := 2, east := 3, north := 4 } 3 [] _ rfl (by decide) (by decide),
    c3_monotonic_progress.2 3 5 (some [1, 2, 3, 4]) none [] (by decide)⟩

/-- C4: the zoom enqueued for a cluster with a usable four-element bbox is
`min (max (zoom+1) suggested) max_zoom`, where an absent or not-larger
`maxZoom` suggestion defaults to `zoom+1`; and a cluster whose bbox is not
a four-element list contributes nothing, processing continuing with the
remaining features. -/
theorem c4_cluster_next_zoom :
    (∀ (max_zoom zoom : Int) (mz : Option Int),
        nextZoomOf max_zoom zoom mz =
          min (max (zoom + 1) (mz.getD (zoom + 1))) max_zoom) ∧
    (∀ (max_zoom zoom : Int) (w s e n : Rat) (mz : Option Int)
        (rest : List MapFeature),
        clusterChildren max_zoom zoom (.cluster (some [w, s, e, n]) mz :: rest) =
          (if min (max (zoom + 1) (mz.getD (zoom + 1))) max_zoom ≤ zoom then []
           else [({ west := w, south := s, east := e, north := n },
                  min (max (zoom + 1) (mz.getD (zoom + 1))) max_zoom)]) ++
            clusterChildren max_zoom zoom rest) ∧
    (∀ (max_zoom zoom : Int) (bb : Option (List Rat)) (mz : Option Int)
        (rest : List MapFeature),
        (∀ l, bb = some l → l.length ≠ 4) →
        clusterChildren max_zoom zoom (.cluster bb mz :: rest) =
          clusterChildren max_zoom zoom rest) := by
  refine ⟨nextZoomOf_eq, ?_, ?_⟩
  · intro max_zoom zoom w s e n mz rest
    rw [clusterChildren, List.filterMap_cons, clusterChildren]
    simp only [clusterChild, nextZoomOf_eq]
    by_cases h : min (max (zoom + 1) (mz.getD (zoom + 1))) max_zoom ≤ zoom <;> simp [h]
  · intro max_zoom zoom bb mz rest h
    rw [clusterChildren, List.filterMap_cons, clusterChildren]
    have hnone : clusterChild max_zoom zoom (.cluster bb mz) = none := by
      cases bb with
      | none => rfl
      | some l =>
        match l with
        | [] => rfl
        | [w] => rfl
        | [w, s] => rfl
        | [w, s, e] => rfl
        | [w, s, e, n] =>
          exact absurd (rfl : ([w, s, e, n] : List Rat).length = 4) (h [w, s, e, n] rfl)
        | w :: s :: e :: n :: x :: r => rfl
    rw [hnone]

/-- Witness for C4 at concrete inputs: suggestion 9 beats zoom+1 = 8 and is
under the cap 16; a three-element bbox is skipped. -/
theorem c4_cluster_next_zoom_witness :
    nextZoomOf 16 7 (some 9) = min (max (7 + 1) ((some (9 : Int)).getD (7 + 1))) 16 ∧
    clusterChildren 16 7 [.cluster (some [1, 2, 3, 4]) (some 9)] =
      (if min (max (7 + 1) ((some (9 : Int)).getD (7 + 1))) 16 ≤ 7 then []
       else [({ west := 1, south := 2, east := 3, north := 4 },
              min (max (7 + 1) ((some (9 : Int)).getD (7 + 1))) 16)]) ++
        clusterChildren 16 7 [] ∧
    clusterChildren 16 7 [.cluster (some [1, 2, 3]) (some 9)] = clusterChildren 16 7 [] :=
  ⟨c4_cluster_next_zoom.1 16 7 (some 9),
   c4_cluster_next_zoom.2.1 16 7 1 2 3 4 (some 9) [],
   c4_cluster_next_zoom.2.2 16 7 (some [1, 2, 3]) (some 9) []
     (by intro l hl; cases hl; decide)⟩

/-! ## Lemmas about the resilient request client -/

theorem goPost_all_transient (url : String) (oracle : Nat → HttpOutcome)
    (h : ∀ i, transientOutcome (oracle i) = true) :
    ∀ (fuel idx : Nat) (last : Option String), 1 ≤ fuel →
      goPost url oracle fuel idx last =
        (.error (.exhausted (some (lastTextFor (oracle (idx + fuel - 1))))), fuel) := by
  intro fuel
  induction fuel with
  | zero => intro idx last hf; omega
  | succ f ih =>
    intro idx last _
    have ht := h idx
    simp only [goPost]
    cases hor : oracle idx with
    | success d =>
      rw [hor] at ht
      simp only [transientOutcome] at ht
      cases f with
      | zero => simp [ht, goPost, hor, lastTextFor]
      | succ g =>
        have harith : idx + 1 + (g + 1) - 1 = idx + (g + 1 + 1) - 1 := by omega
        simp [ht, ih (idx + 1) (some "Server error.") (by omega), harith]
    | httpError c b =>
      rw [hor] at ht
      simp only [transientOutcome] at ht
      cases f with
      | zero => simp [ht, goPost, hor, lastTextFor]
      | succ g =>
        have harith : idx + 1 + (g + 1) - 1 = idx + (g + 1 + 1) - 1 := by omega
        simp [ht, ih (idx + 1) _ (by omega), harith, lastTextFor, hor]
    | exn m =>
      cases f with
      | zero => simp [goPost, hor, lastTextFor]
      | succ g =>
        have harith : idx + 1 + (g + 1) - 1 = idx + (g + 1 + 1) - 1 := by omega
        simp [ih (idx + 1) _ (by omega), harith, lastTextFor, hor]

/-- C6: when every attempt observes a transient fault, exactly
`max_attempts` request attempts are made and the call fails with the
retries-exhausted error carrying the last observed fault text. -/
theorem c6_retries_exhausted (url : String) (oracle : Nat → HttpOutcome)
    (n : Nat) (h : ∀ i, transientOutcome (oracle i) = true) (hn : 1 ≤ n) :
    post_json_with_retries url oracle n =
      (.error (.exhausted (some (lastTextFor (oracle n)))), n) := by
  rw [post_json_with_retries, goPost_all_transient url oracle h n 1 none hn]
  have : 1 + n - 1 = n := by omega
  rw [this]

/-- Witness for C6: an oracle that always times out, with the default
budget of 8 attempts, makes exactly 8 attempts then fails with the last
fault. -/
theorem c6_retries_exhausted_witness :
    post_json_with_retries "u" (fun _ => .exn "timed out") 8 =
      (.error (.exhausted (some "timed out")), 8) := by
  simpa [lastTextFor] using
    c6_retries_exhausted "u" (fun _ => .exn "timed out") 8 (fun i => rfl) (by omega)

/-- C5: a parsed 200 response is classified transient exactly when it (or
some element of a batch) is a dict carrying an `errors` array whose first
message contains the marker; a non-2xx response is retried exactly when
its body contains the marker, and otherwise propagates immediately as
fatal after a single attempt. -/
theorem c5_transient_classification :
    (∀ item : RespItem,
        has_server_error item = true ↔
          ∃ e es, item = .dict (e :: es) ∧
            containsSub (e.message.getD "") serverErrorMarker = true) ∧
    (∀ xs : List RespItem,
        serverErrorIn (.batch xs) = true ↔ ∃ x ∈ xs, has_server_error x = true) ∧
    (∀ (url : String) (oracle : Nat → HttpOutcome) (d : Resp) (n : Nat),
        oracle 1 = .success d → serverErrorIn d = false →
        post_json_with_retries url oracle (n + 1) = (.ok d, 1)) ∧
    (∀ (url : String) (oracle : Nat → HttpOutcome) (d : Resp),
        oracle 1 = .success d → serverErrorIn d = true →
        post_json_with_retries url oracle 1 =
          (.error (.exhausted (some "Server error.")), 1)) ∧
    (∀ (url : String) (oracle : Nat → HttpOutcome) (c : Int) (b : String) (n : Nat),
        oracle 1 = .httpError c b →
        containsSub b serverErrorMarker = false →
        post_json_with_retries url oracle (n + 1) =
          (.error (.fatalHttp ("HTTP error from " ++ url ++ ": " ++
            ("HTTP " ++ toString c ++ ": " ++ b))), 1)) ∧
    (∀ (url : String) (oracle : Nat → HttpOutcome) (c : Int) (b : String),
        oracle 1 = .httpError c b →
        containsSub b serverErrorMarker = true →
        post_json_with_retries url oracle 1 =
          (.error (.exhausted (some ("HTTP " ++ toString c ++ ": " ++ b))), 1)) := by
  refine ⟨?_, ?_, ?_, ?_, ?_, ?_⟩
  · intro item
    cases item with
    | dict errs =>
      cases errs with
      | nil => simp [has_server_error]
      | cons e es =>
        simp only [has_server_error]
        constructor
        · intro h; exact ⟨e, es, rfl, h⟩
        · rintro ⟨e₂, es₂, heq, h⟩
          obtain ⟨rfl, rfl⟩ : e = e₂ ∧ es = es₂ := by
            injection heq with h₂; exact ⟨(List.cons.injEq _ _ _ _ ▸ h₂).1, (List.cons.injEq _ _ _ _ ▸ h₂).2⟩
          exact h
    | nondict => simp [has_server_error]
  · intro xs
    simp [serverErrorIn, List.any_eq_true]
  · intro url oracle d n h1 h2
    simp only [post_json_with_retries, goPost, h1, h2]
    simp
  · intro url oracle d h1 h2
    simp only [post_json_with_retries, goPost, h1, h2]
    simp [goPost]
  · intro url oracle c b n h1 h2
    simp only [post_json_with_retries, goPost, h1, h2]
    simp
  · intro url oracle c b h1 h2
    simp only [post_json_with_retries, goPost, h1, h2]
    simp [goPost]

/-- Witness for C5: concrete responses exercising each classification. -/
theorem c5_transient_classification_witness :
    (has_server_error (.dict [⟨some "XX Server error YY"⟩]) = true ↔
      ∃ e es, (RespItem.dict [⟨some "XX Server error YY"⟩] : RespItem) = .dict (e :: es) ∧
        containsSub (e.message.getD "") serverErrorMarker = true) ∧
    post_json_with_retries "u" (fun _ => .success (.single .nondict)) 8 =
      (.ok (.single .nondict), 1) ∧
    post_json_with_retries "u"
        (fun _ => .success (.single (.dict [⟨some "Server error."⟩]))) 1 =
      (.error (.exhausted (some "Server error.")), 1) ∧
    post_json_with_retries "u" (fun _ => .httpError 400 "Bad Request") 8 =
      (.error (.fatalHttp ("HTTP error from " ++ "u" ++ ": " ++
        ("HTTP " ++ toString (400 : Int) ++ ": " ++ "Bad Request"))), 1) ∧
    post_json_with_retries "u" (fun _ => .httpError 500 "A Server error occurred") 1 =
      (.error (.exhausted (some ("HTTP " ++ toString (500 : Int) ++ ": " ++
        "A Server error occurred"))), 1) :=
  ⟨c5_transient_classification.1 (.dict [⟨some "XX Server error YY"⟩]),
   c5_transient_classification.2.2.1 "u" (fun _ => .success (.single .nondict))
     (.single .nondict) 7 rfl rfl,
   c5_transient_classification.2.2.2.1 "u"
     (fun _ => .success (.single (.dict [⟨some "Server error."⟩])))
     (.single (.dict [⟨some "Server error."⟩])) rfl (by decide),
   c5_transient_classification.2.2.2.2.1 "u" (fun _ => .httpError 400 "Bad Request")
     400 "Bad Request" 7 rfl (by decide),
   c5_transient_classification.2.2.2.2.2 "u"
     (fun _ => .httpError 500 "A Server error occurred") 500 "A Server error occurred"
     rfl (by decide)⟩

/-! ## Lemmas about the merge ordering -/

theorem charListLe_total : ∀ xs ys : List Char,
    charListLe xs ys = true ∨ charListLe ys xs = true := by
  intro xs
  induction xs with
  | nil => intro ys; left; rfl
  | cons a as ih =>
    intro ys
    cases ys with
    | nil => right; rfl
    | cons b bs =>
      rcases lt_trichotomy a b with h | h | h
      · left; simp [charListLe, h]
      · subst h
        rcases ih bs with h₂ | h₂
        · left; simp [charListLe, lt_irrefl, h₂]
        · right; simp [charListLe, lt_irrefl, h₂]
      · right; simp [charListLe, h]

theorem charListLe_trans : ∀ xs ys zs : List Char,
    charListLe xs ys = true → charListLe ys zs = true → charListLe xs zs = true := by
  intro xs
  induction xs with
  | nil => intro ys zs _ _; rfl
  | cons a as ih =>
    intro ys zs h₁ h₂
    cases ys with
    | nil => simp [charListLe] at h₁
    | cons b bs =>
      cases zs with
      | nil => simp [charListLe] at h₂
      | cons c cs =>
        simp only [charListLe] at h₁ h₂ ⊢
        rcases lt_trichotomy a b with hab | hab | hab
        · rcases lt_trichotomy b c with hbc | hbc | hbc
          · simp [lt_trans hab hbc]
          · subst hbc; simp [hab]
          · rw [if_neg (lt_asymm hbc), if_pos hbc] at h₂; exact absurd h₂ (by simp)
        · subst hab
          rcases lt_trichotomy a c with hac | hac | hac
          · simp [hac]
          · subst hac
            rw [if_neg (lt_irrefl a), if_neg (lt_irrefl a)] at h₁ h₂ ⊢
            exact ih bs cs h₁ h₂
          · rw [if_neg (lt_asymm hac), if_pos hac] at h₂; exact absurd h₂ (by simp)
        · rw [if_neg (lt_asymm hab), if_pos hab] at h₁; exact absurd h₁ (by simp)

theorem keyLE_total : ∀ a b : Int × String, keyLE a b = true ∨ keyLE b a = true := by
  intro a b
  rcases lt_trichotomy a.1 b.1 with h | h | h
  · left; simp [keyLE, h]
  · rcases charListLe_total a.2.toList b.2.toList with h₂ | h₂
    · left; simp only [String.toList] at h₂; simp [keyLE, h, h₂]
    · right; simp only [String.toList] at h₂; simp [keyLE, h.symm, h₂]
  · right; simp [keyLE, h]

theorem keyLE_trans : ∀ a b c : Int × String,
    keyLE a b = true → keyLE b c = true → keyLE a c = true := by
  intro a b c h₁ h₂
  simp only [keyLE, Bool.or_eq_true, Bool.and_eq_true, beq_iff_eq,
    decide_eq_true_eq] at h₁ h₂ ⊢
  rcases h₁ with h₁ | ⟨h₁e, h₁s⟩
  · rcases h₂ with h₂ | ⟨h₂e, h₂s⟩
    · exact Or.inl (lt_trans h₁ h₂)
    · exact Or.inl (h₂e ▸ h₁)
  · rcases h₂ with h₂ | ⟨h₂e, h₂s⟩
    · exact Or.inl (h₁e ▸ h₂)
    · exact Or.inr ⟨h₁e.trans h₂e, charListLe_trans _ _ _ h₁s h₂s⟩

theorem insertSorted_perm (le : α → α → Bool) (a : α) :
    ∀ l : List α, (insertSorted le a l).Perm (a :: l) := by
  intro l
  induction l with
  | nil => exact List.Perm.refl _
  | cons b bs ih =>
    simp only [insertSorted]
    split
    · exact List.Perm.refl _
    · exact (ih.cons b).trans (List.Perm.swap a b bs)

theorem mem_insertSorted {le : α → α → Bool} {a x : α} {l : List α}
    (h : x ∈ insertSorted le a l) : x = a ∨ x ∈ l := by
  have := (insertSorted_perm le a l).mem_iff.mp h
  simpa using this

theorem insertSorted_pairwise (le : α → α → Bool)
    (htot : ∀ a b, le a b = true ∨ le b a = true)
    (htrans : ∀ a b c, le a b = true → le b c = true → le a c = true)
    (a : α) : ∀ l : List α, l.Pairwise (fun x y => le x y = true) →
      (insertSorted le a l).Pairwise (fun x y => le x y = true) := by
  intro l
  induction l with
  | nil => intro _; simp [insertSorted]
  | cons b bs ih =>
    intro h
    rw [List.pairwise_cons] at h
    obtain ⟨hb, hbs⟩ := h
    simp only [insertSorted]
    split
    · rename_i hab
      rw [List.pairwise_cons]
      refine ⟨?_, List.pairwise_cons.mpr ⟨hb, hbs⟩⟩
      intro x hx
      rcases List.mem_cons.mp hx with rfl | hx
      · exact hab
      · exact htrans a b x hab (hb x hx)
    · rename_i hab
      have hba : le b a = true := by
        rcases htot a b with h | h
        · exact absurd h hab
        · exact h
      rw [List.pairwise_cons]
      refine ⟨?_, ih hbs⟩
      intro x hx
      rcases mem_insertSorted hx with rfl | hx
      · exact hba
      · exact hb x hx

theorem stableSortBy_perm (le : α → α → Bool) :
    ∀ l : List α, (stableSortBy le l).Perm l := by
  intro l
  induction l with
  | nil => exact List.Perm.refl _
  | cons x xs ih =>
    have : stableSortBy le (x :: xs) = insertSorted le x (stableSortBy le xs) := rfl
    rw [this]
    exact (insertSorted_perm le x (stableSortBy le xs)).trans (ih.cons x)

theorem stableSortBy_pairwise (le : α → α → Bool)
    (htot : ∀ a b, le a b = true ∨ le b a = true)
    (htrans : ∀ a b c, le a b = true → le b c = true → le a c = true) :
    ∀ l : List α, (stableSortBy le l).Pairwise (fun x y => le x y = true) := by
  intro l
  induction l with
  | nil => simp [stableSortBy]
  | cons x xs ih =>
    have : stableSortBy le (x :: xs) = insertSorted le x (stableSortBy le xs) := rfl
    rw [this]
    exact insertSorted_pairwise le htot htrans x (stableSortBy le xs) ih

/-- C8 as stated is false on the code: `uri_key` maps every unparsable
identifier to the sentinel key `10^18`, so a parseable identifier whose
numeric segment is at least `10^18` sorts after an unparsable one. -/
theorem c8_merge_ordering_counterexample :
    (uriNum "camera/2000000000000000000").isSome = true ∧
    uriNum "camera/abc" = none ∧
    sortRecords ["camera/2000000000000000000", "camera/abc"] =
      ["camera/abc", "camera/2000000000000000000"] := by
  decide

/-- C8 amended: the merge stage sorts ascending by the key pair of
`uri_key` (the parsed numeric segment, or the sentinel `10^18` when
unparsable, tie-broken by the identifier string); consequently parseable
records sort ascending by their key, a parseable record with key below
`10^18` precedes every unparsable one, unparsable ties break by string
ordering, and the claim's example orders as `3, 12, abc`. -/
theorem c8_merge_ordering_amended :
    (∀ l, (sortRecords l).Pairwise (fun a b => keyLE (uri_key a) (uri_key b) = true)) ∧
    (∀ l, (sortRecords l).Perm l) ∧
    (∀ u v j, uriNum u = some j → j < 10 ^ 18 → uriNum v = none →
        (uri_key u).1 < (uri_key v).1) ∧
    (∀ u v j k, uriNum u = some j → uriNum v = some k → j < k →
        (uri_key u).1 < (uri_key v).1) ∧
    (∀ u v, uriNum u = none → uriNum v = none →
        keyLE (uri_key u) (uri_key v) = charListLe u.toList v.toList) ∧
    sortRecords ["camera/12/x", "camera/3/y", "camera/abc"] =
      ["camera/3/y", "camera/12/x", "camera/abc"] := by
  refine ⟨?_, ?_, ?_, ?_, ?_, by decide⟩
  · intro l
    exact stableSortBy_pairwise (fun a b => keyLE (uri_key a) (uri_key b))
      (fun a b => keyLE_total (uri_key a) (uri_key b))
      (fun a b c => keyLE_trans (uri_key a) (uri_key b) (uri_key c)) l
  · intro l
    exact stableSortBy_perm _ l
  · intro u v j hu hj hv
    have hj₂ : j < 1000000000000000000 := by norm_num at hj; exact hj
    simp [uri_key, hu, hv, hj₂]
  · intro u v j k hu hv hjk
    simp [uri_key, hu, hv, hjk]
  · intro u v hu hv
    simp [keyLE, uri_key, hu, hv]

/-- Witness for the amended C8 at concrete identifiers. -/
theorem c8_merge_ordering_amended_witness :
    ((uri_key "camera/3/y").1 < (uri_key "camera/abc").1) ∧
    ((uri_key "camera/3/y").1 < (uri_key "camera/12/x").1) ∧
    keyLE (uri_key "camera/abc") (uri_key "camera/zzz") =
      charListLe "camera/abc".toList "camera/zzz".toList ∧
    (sortRecords ["camera/abc", "camera/3/y"]).Pairwise
      (fun a b => keyLE (uri_key a) (uri_key b) = true) :=
  ⟨c8_merge_ordering_amended.2.2.1 "camera/3/y" "camera/abc" 3 (by decide)
      (by decide) (by decide),
   c8_merge_ordering_amended.2.2.2.1 "camera/3/y" "camera/12/x" 3 12 (by decide)
      (by decide) (by decide),
   c8_merge_ordering_amended.2.2.2.2.1 "camera/abc" "camera/zzz" (by decide) (by decide),
   c8_merge_ordering_amended.1 ["camera/abc", "camera/3/y"]⟩

/-! ## Lemmas about the harvester's media-source map -/

/-- The per-camera invariant: every kept source is HLS with a nonempty
URL, and the `src` strings are pairwise distinct. -/
def goodSrcs (srcs : List MediaSource) : Prop :=
  (∀ ms ∈ srcs, ms.type = HLS_MIME ∧ ms.src ≠ "") ∧ (srcs.map MediaSource.src).Nodup

/-- The map-wide invariant. -/
def goodMap (m : HlsMap) : Prop := ∀ p ∈ m, goodSrcs p.2

theorem addSource_dup {srcs : List MediaSource} {t u : String}
    (h : u ∈ srcs.map MediaSource.src) : addSource srcs t u = srcs := by
  rw [addSource, if_pos]
  rw [List.any_eq_true]
  obtain ⟨ms, hms, hsrc⟩ := List.mem_map.mp h
  exact ⟨ms, hms, by simp [hsrc]⟩

theorem addSource_good {srcs : List MediaSource} {t u : String}
    (h : goodSrcs srcs) (ht : t = HLS_MIME) (hu : u ≠ "") :
    goodSrcs (addSource srcs t u) := by
  rw [addSource]
  split
  · exact h
  · rename_i hdup
    constructor
    · intro ms hms
      rcases List.mem_append.mp hms with hms | hms
      · exact h.1 ms hms
      · obtain rfl : ms = ⟨t, u⟩ := by simpa using hms
        exact ⟨ht, hu⟩
    · rw [List.map_append, List.nodup_append]
      refine ⟨h.2, by simp, ?_⟩
      intro x hx hx₂
      obtain rfl : x = u := by simpa using hx₂
      rw [List.any_eq_true] at hdup
      push_neg at hdup
      obtain ⟨ms, hms, hsrc⟩ := List.mem_map.mp hx
      exact absurd (by simp [hsrc]) (hdup ms hms)

theorem hlsAdd_good {m : HlsMap} {k t u : String}
    (h : goodMap m) (ht : t = HLS_MIME) (hu : u ≠ "") :
    goodMap (hlsAdd m k t u) := by
  induction m with
  | nil =>
    intro p hp
    simp only [hlsAdd, List.mem_singleton] at hp
    rw [hp]
    show goodSrcs (addSource [] t u)
    exact addSource_good ⟨by simp, by simp⟩ ht hu
  | cons hd rest ih =>
    obtain ⟨k₂, v⟩ := hd
    rw [hlsAdd]
    split
    · intro p hp
      rcases List.mem_cons.mp hp with hp | hp
      · rw [hp]
        show goodSrcs (addSource v t u)
        exact addSource_good (h (k₂, v) (by simp)) ht hu
      · exact h p (List.mem_cons_of_mem _ hp)
    · intro p hp
      rcases List.mem_cons.mp hp with hp | hp
      · rw [hp]; exact h (k₂, v) (by simp)
      · exact ih (fun q hq => h q (List.mem_cons_of_mem _ hq)) p hp

theorem processSource_good {m : HlsMap} {camUri : String} {s : ViewSource}
    (h : goodMap m) : goodMap (processSource m camUri s) := by
  obtain ⟨st, su⟩ := s
  cases st with
  | none =>
    cases su with
    | none => exact h
    | some u => exact h
  | some t =>
    cases su with
    | none => exact h
    | some u =>
      simp only [processSource]
      split
      · rename_i hcond
        rw [Bool.and_eq_true, beq_iff_eq] at hcond
        exact hlsAdd_good h hcond.1 (by simpa using hcond.2)
      · exact h

theorem processRow_good {m : HlsMap} {v : ViewRow}
    (h : goodMap m) : goodMap (processRow m v) := by
  rw [processRow]
  split
  · have : ∀ (srcs : List ViewSource) (acc : HlsMap), goodMap acc →
        goodMap (srcs.foldl (fun a s => processSource a (v.parentUri.getD "") s) acc) := by
      intro srcs
      induction srcs with
      | nil => intro acc ha; exact ha
      | cons s rest ih => intro acc ha; exact ih _ (processSource_good ha)
    exact this v.sources m h
  · exact h

theorem processRows_good {m : HlsMap} {rows : List ViewRow}
    (h : goodMap m) : goodMap (processRows m rows) := by
  induction rows generalizing m with
  | nil => exact h
  | cons r rest ih => exact ih (processRow_good h)

theorem goHarvest_good {oracle : Int → ViewsResp} {limit : Int} :
    ∀ (fuel : Nat) (offset : Int) (total : Option Int) (acc : HlsMap)
      (log : List Int) (m : HlsMap) (lg : List Int),
      goodMap acc →
      goHarvest oracle limit fuel offset total acc log = some (.ok (m, lg)) →
      goodMap m := by
  intro fuel
  induction fuel with
  | zero => intro offset total acc log m lg _ h; simp [goHarvest] at h
  | succ f ih =>
    intro offset total acc log m lg hacc h
    simp only [goHarvest] at h
    cases he : (oracle offset).errors with
    | some e => simp only [he] at h; exact absurd h (by simp)
    | none =>
      simp only [he] at h
      cases hd : (oracle offset).dataError with
      | some e => simp only [hd] at h; exact absurd h (by simp)
      | none =>
        simp only [hd] at h
        split at h
        · simp only [Option.some.injEq, Except.ok.injEq, Prod.mk.injEq] at h
          obtain ⟨h₁, h₂⟩ := h
          rw [← h₁]
          exact processRows_good hacc
        · exact ih _ _ _ _ _ _ (processRows_good hacc) h

/-- C9: in any completed harvest, every stored media source has the HLS
MIME type and a nonempty URL, no two sources of one camera share a `src`
string, and adding a source whose `src` is already present leaves the
camera's list unchanged. -/
theorem c9_source_dedup :
    (∀ (oracle : Int → ViewsResp) (limit : Int) (fuel : Nat) (m : HlsMap)
        (log : List Int),
        fetch_all_camera_views_hls oracle limit fuel = some (.ok (m, log)) →
        ∀ cam srcs, (cam, srcs) ∈ m →
          (∀ ms ∈ srcs, ms.type = HLS_MIME ∧ ms.src ≠ "") ∧
          (srcs.map MediaSource.src).Nodup) ∧
    (∀ (srcs : List MediaSource) (t u : String),
        u ∈ srcs.map MediaSource.src → addSource srcs t u = srcs) := by
  constructor
  · intro oracle limit fuel m log h cam srcs hmem
    exact goHarvest_good fuel 0 none [] [] m log (by intro p hp; simp at hp) h
      (cam, srcs) hmem
  · intro srcs t u h
    exact addSource_dup h

/-- Witness for C9: a run in which the same source appears twice for one
camera stores it once, and the duplicate add is a no-op. -/
theorem c9_source_dedup_witness :
    ((∀ ms ∈ [MediaSource.mk "application/x-mpegURL" "http://a"],
        ms.type = HLS_MIME ∧ ms.src ≠ "") ∧
      (([MediaSource.mk "application/x-mpegURL" "http://a"]).map
        MediaSource.src).Nodup) ∧
    addSource [MediaSource.mk "application/x-mpegURL" "http://a"]
        "application/x-mpegURL" "http://a" =
      [MediaSource.mk "application/x-mpegURL" "http://a"] :=
  ⟨c9_source_dedup.1
      (fun _ => ⟨none, none,
        [⟨some "camera/1",
          [⟨some "application/x-mpegURL", some "http://a"⟩,
           ⟨some "application/x-mpegURL", some "http://a"⟩]⟩], 1⟩)
      250 1 [("camera/1", [MediaSource.mk "application/x-mpegURL" "http://a"])] [0]
      rfl "camera/1" [MediaSource.mk "application/x-mpegURL" "http://a"] (by simp),
   c9_source_dedup.2 [MediaSource.mk "application/x-mpegURL" "http://a"]
      "application/x-mpegURL" "http://a" (by simp)⟩

/-! ## Lemmas about pagination -/

theorem range_map_shift (offset limit : Int) (k : Nat) :
    (List.range (k + 1 + 1)).map (fun i : Nat => offset + (i : Int) * limit) =
      offset :: (List.range (k + 1)).map (fun i : Nat => offset + limit + (i : Int) * limit) := by
  rw [List.range_succ_eq_map, List.map_cons, List.map_map]
  congr 1
  · push_cast; ring
  · apply List.map_congr_left
    intro i _
    show offset + ((i + 1 : Nat) : Int) * limit = offset + limit + (i : Int) * limit
    push_cast
    ring

theorem goHarvest_log_shape {oracle : Int → ViewsResp} {limit : Int} :
    ∀ (fuel : Nat) (offset : Int) (total : Option Int) (acc : HlsMap)
      (log : List Int) (m : HlsMap) (lg : List Int),
      goHarvest oracle limit fuel offset total acc log = some (.ok (m, lg)) →
      ∃ k : Nat,
        lg = log ++ (List.range (k + 1)).map (fun i : Nat => offset + (i : Int) * limit) := by
  intro fuel
  induction fuel with
  | zero => intro _ _ _ _ _ _ h; simp [goHarvest] at h
  | succ f ih =>
    intro offset total acc log m lg h
    simp only [goHarvest] at h
    cases he : (oracle offset).errors with
    | some e => simp only [he] at h; exact absurd h (by simp)
    | none =>
      simp only [he] at h
      cases hd : (oracle offset).dataError with
      | some e => simp only [hd] at h; exact absurd h (by simp)
      | none =>
        simp only [hd] at h
        split at h
        · refine ⟨0, ?_⟩
          simp only [Option.some.injEq, Except.ok.injEq, Prod.mk.injEq] at h
          rw [← h.2]
          simp [List.range_succ]
        · obtain ⟨k, hk⟩ := ih (offset + limit) _ _ _ _ _ h
          refine ⟨k + 1, ?_⟩
          rw [hk, range_map_shift, List.append_assoc, List.singleton_append]

/-- C7: every completed harvest issues its page requests at offsets
`0, pageSize, 2*pageSize, ...`; and with every page reporting
`totalRecords = 530` and nonempty rows at page size 250, exactly three
requests are issued, at offsets 0, 250 and 500. -/
theorem c7_pagination :
    (∀ (oracle : Int → ViewsResp) (limit : Int) (fuel : Nat) (m : HlsMap)
        (log : List Int),
        fetch_all_camera_views_hls oracle limit fuel = some (.ok (m, log)) →
        ∃ k : Nat, log = (List.range (k + 1)).map (fun i : Nat => (i : Int) * limit)) ∧
    (∀ oracle : Int → ViewsResp,
        (∀ off, (oracle off).errors = none) →
        (∀ off, (oracle off).dataError = none) →
        (∀ off, (oracle off).totalRecords = 530) →
        (∀ off, (oracle off).cameraViews ≠ []) →
        ∀ f : Nat, ∃ m : HlsMap,
          fetch_all_camera_views_hls oracle 250 (f + 3) =
            some (.ok (m, [0, 250, 500]))) := by
  constructor
  · intro oracle limit fuel m log h
    obtain ⟨k, hk⟩ := goHarvest_log_shape fuel 0 none [] [] m log h
    refine ⟨k, ?_⟩
    rw [hk]
    simp
  · intro oracle he hd ht hr f
    have hne : ∀ off, (oracle off).cameraViews.isEmpty = false := by
      intro off
      cases hcv : (oracle off).cameraViews with
      | nil => exact absurd hcv (hr off)
      | cons a l => rfl
    refine ⟨processRows (processRows (processRows [] (oracle 0).cameraViews)
      (oracle 250).cameraViews) (oracle 500).cameraViews, ?_⟩
    rw [fetch_all_camera_views_hls, (rfl : f + 3 = f + 2 + 1)]
    simp only [goHarvest, he, hd, ht, hne]
    norm_num

/-- Witness for C7: a concrete three-page run. -/
theorem c7_pagination_witness :
    ∃ m : HlsMap,
      fetch_all_camera_views_hls
          (fun _ => ⟨none, none, [⟨some "camera/1", []⟩], 530⟩) 250 3 =
        some (.ok (m, [0, 250, 500])) :=
  c7_pagination.2 (fun _ => ⟨none, none, [⟨some "camera/1", []⟩], 530⟩)
    (fun _ => rfl) (fun _ => rfl) (fun _ => rfl) (fun _ => by simp) 0

/-! ## Lemmas about the frontier's dedup invariant -/

/-- Invariant tying the query log to the visited set: logged queries have
pairwise distinct dedup keys, and every logged key has been marked seen. -/
def frontierInv (st : FrontierState) : Prop :=
  st.queries.Pairwise (fun a b => jobKeyOf a ≠ jobKeyOf b) ∧
  ∀ q ∈ st.queries, jobKeyOf q ∈ st.seen

theorem frontierInv_init (start_zoom : Int) : frontierInv (initFrontier start_zoom) := by
  constructor
  · simp [initFrontier]
  · intro q hq
    simp [initFrontier] at hq

theorem frontierInv_step (fetch : Region → Int → List MapFeature) (max_zoom : Int)
    {st : FrontierState} (h : frontierInv st) :
    frontierInv (stepFrontier fetch max_zoom st) := by
  obtain ⟨cams, q, seen, queries⟩ := st
  cases q with
  | nil => exact h
  | cons j rest =>
    obtain ⟨bbox, zoom⟩ := j
    simp only [stepFrontier]
    split
    · exact h
    · rename_i hnotseen
      constructor
      · rw [List.pairwise_append]
        refine ⟨h.1, by simp, ?_⟩
        intro a ha b hb
        obtain rfl : b = (bbox, zoom) := by simpa using hb
        intro heq
        exact hnotseen (heq ▸ h.2 a ha)
      · intro p hp
        rcases List.mem_append.mp hp with hp | hp
        · exact List.mem_cons_of_mem _ (h.2 p hp)
        · obtain rfl : p = (bbox, zoom) := by simpa using hp
          exact List.mem_cons_self _ _

theorem frontierInv_stepN (fetch : Region → Int → List MapFeature) (max_zoom : Int) :
    ∀ (n : Nat) (st : FrontierState), frontierInv st →
      frontierInv (stepN fetch max_zoom n st) := by
  intro n
  induction n with
  | zero => intro st h; exact h
  | succ k ih => intro st h; exact ih _ (frontierInv_step fetch max_zoom h)

theorem frontierInv_runFrontier (fetch : Region → Int → List MapFeature)
    (max_zoom : Int) :
    ∀ (fuel : Nat) (st final : FrontierState), frontierInv st →
      runFrontier fetch max_zoom fuel st = some final → frontierInv final := by
  intro fuel
  induction fuel with
  | zero =>
    intro st final h hr
    simp only [runFrontier] at hr
    split at hr
    · exact (Option.some_inj.mp hr) ▸ h
    · exact absurd hr (by simp)
  | succ f ih =>
    intro st final h hr
    simp only [runFrontier] at hr
    split at hr
    · exact (Option.some_inj.mp hr) ▸ h
    · exact ih _ final (frontierInv_step fetch max_zoom h) hr

/-- C1: over a whole run of the frontier — any number of loop iterations
from the initial state, and any completed `fetch_all_cameras_with_coords`
run — no two issued map-features queries share a dedup key (the four
region coordinates rounded to 6 decimals, plus the zoom). -/
theorem c1_dedup_at_most_once :
    (∀ (fetch : Region → Int → List MapFeature) (max_zoom start_zoom : Int)
        (n : Nat),
        ((stepN fetch max_zoom n (initFrontier start_zoom)).queries).Pairwise
          (fun a b => jobKeyOf a ≠ jobKeyOf b)) ∧
    (∀ (fetch : Region → Int → List MapFeature) (start_zoom max_zoom : Int)
        (fuel : Nat) (final : FrontierState),
        fetch_all_cameras_with_coords fetch start_zoom max_zoom fuel = some final →
        final.queries.Pairwise (fun a b => jobKeyOf a ≠ jobKeyOf b)) := by
  constructor
  · intro fetch max_zoom start_zoom n
    exact (frontierInv_stepN fetch max_zoom n _ (frontierInv_init start_zoom)).1
  · intro fetch start_zoom max_zoom fuel final h
    exact (frontierInv_runFrontier fetch max_zoom fuel _ final
      (frontierInv_init start_zoom) h).1

/-- Witness for C1: a completed one-query run has a duplicate-free log. -/
theorem c1_dedup_at_most_once_witness :
    (stepFrontier (fun _ _ => []) 16 (initFrontier 7)).queries.Pairwise
      (fun a b => jobKeyOf a ≠ jobKeyOf b) :=
  c1_dedup_at_most_once.2 (fun _ _ => []) 7 16 1
    (stepFrontier (fun _ _ => []) 16 (initFrontier 7)) rfl

/-! ## Lemmas about recorded cameras -/

theorem mem_keys_upsert (cams : List (String × CameraRec)) (k : String)
    (v : CameraRec) : k ∈ (upsert cams k v).map Prod.fst := by
  induction cams with
  | nil => simp [upsert]
  | cons hd rest ih =>
    obtain ⟨k₂, v₂⟩ := hd
    rw [upsert]
    split
    · rename_i heq
      rw [beq_iff_eq] at heq
      simp [heq]
    · simpa using Or.inr ih

theorem mem_keys_upsert_of_mem {cams : List (String × CameraRec)} {a k : String}
    {v : CameraRec} (h : a ∈ cams.map Prod.fst) :
    a ∈ (upsert cams k v).map Prod.fst := by
  induction cams with
  | nil => simp at h
  | cons hd rest ih =>
    obtain ⟨k₂, v₂⟩ := hd
    rw [upsert]
    rcases (by simpa using h : a = k₂ ∨ a ∈ rest.map Prod.fst) with rfl | h₂
    · split
      · simp
      · simp
    · split
      · simpa using Or.inr h₂
      · simpa using Or.inr (ih h₂)

theorem mem_keys_recordCamera {cams : List (String × CameraRec)} {a : String}
    (f : MapFeature) (h : a ∈ cams.map Prod.fst) :
    a ∈ (recordCamera cams f).map Prod.fst := by
  cases f with
  | camera uri title active gf =>
    rw [recordCamera]
    split
    · exact mem_keys_upsert_of_mem h
    · exact h
  | cluster bb mz => exact h
  | otherFeature => exact h

theorem mem_keys_recordCameras {cams : List (String × CameraRec)} {a : String}
    (feats : List MapFeature) (h : a ∈ cams.map Prod.fst) :
    a ∈ (recordCameras cams feats).map Prod.fst := by
  induction feats generalizing cams with
  | nil => exact h
  | cons f rest ih => exact ih (mem_keys_recordCamera f h)

theorem camera_recorded {feats : List MapFeature} {uri : Option String}
    {title : Option String} {active : Option Bool} {gf : List GeoFeature}
    (cams : List (String × CameraRec))
    (hmem : MapFeature.camera uri title active gf ∈ feats)
    (htruthy : truthyStr uri = true) :
    uri.getD "" ∈ (recordCameras cams feats).map Prod.fst := by
  induction feats generalizing cams with
  | nil => simp at hmem
  | cons g rest ih =>
    rcases List.mem_cons.mp hmem with heq | hmem₂
    · have : uri.getD "" ∈ (recordCamera cams g).map Prod.fst := by
        rw [← heq, recordCamera]
        rw [if_pos htruthy]
        exact mem_keys_upsert _ _ _
      exact mem_keys_recordCameras rest this
    · exact ih (recordCamera cams g) hmem₂

theorem runFrontier_of_empty (fetch : Region → Int → List MapFeature)
    (max_zoom : Int) (fuel : Nat) {st : FrontierState} (h : st.queue = []) :
    runFrontier fetch max_zoom fuel st = some st := by
  cases fuel with
  | zero => simp [runFrontier, h]
  | succ f => simp [runFrontier, h]

/-- C10: with `start_zoom > max_zoom` the initial job is still processed:
one query is issued, every camera with a truthy identifier is recorded,
every cluster is dropped (its capped next zoom cannot exceed the current
zoom) so nothing is enqueued, and the run ends after that single query. -/
theorem c10_start_above_cap (fetch : Region → Int → List MapFeature)
    (start_zoom max_zoom : Int) (h : max_zoom < start_zoom) :
    (∀ fuel : Nat,
        fetch_all_cameras_with_coords fetch start_zoom max_zoom (fuel + 1) =
          some { cameras := recordCameras [] (fetch CO_BBOX start_zoom),
                 queue := [],
                 seen := [jobKeyOf (CO_BBOX, start_zoom)],
                 queries := [(CO_BBOX, start_zoom)] }) ∧
    (∀ (uri : Option String) (title : Option String) (active : Option Bool)
        (gf : List GeoFeature),
        MapFeature.camera uri title active gf ∈ fetch CO_BBOX start_zoom →
        truthyStr uri = true →
        uri.getD "" ∈ (recordCameras [] (fetch CO_BBOX start_zoom)).map Prod.fst) := by
  constructor
  · intro fuel
    have hstep : stepFrontier fetch max_zoom (initFrontier start_zoom) =
        { cameras := recordCameras [] (fetch CO_BBOX start_zoom),
          queue := [],
          seen := [jobKeyOf (CO_BBOX, start_zoom)],
          queries := [(CO_BBOX, start_zoom)] } := by
      simp only [stepFrontier, initFrontier]
      rw [if_neg (by simp)]
      rw [clusterChildren_nil_of_le (le_of_lt h)]
      simp
    rw [fetch_all_cameras_with_coords, runFrontier]
    rw [if_neg (by simp [initFrontier])]
    rw [hstep]
    exact runFrontier_of_empty fetch max_zoom fuel rfl
  · intro uri title active gf hmem htruthy
    exact camera_recorded [] hmem htruthy

/-- Witness for C10: starting at zoom 17 with cap 16, one camera and one
cluster come back; the camera is recorded, the cluster dropped, and the
run ends after the single query. -/
theorem c10_start_above_cap_witness :
    (fetch_all_cameras_with_coords
        (fun _ _ => [.camera (some "camera/5") none none [],
                     .cluster (some [1, 2, 3, 4]) (some 20)]) 17 16 1 =
      some { cameras := recordCameras []
               ((fun _ _ => [MapFeature.camera (some "camera/5") none none [],
                 .cluster (some [1, 2, 3, 4]) (some 20)]) CO_BBOX 17),
             queue := [],
             seen := [jobKeyOf (CO_BBOX, 17)],
             queries := [(CO_BBOX, 17)] }) ∧
    "camera/5" ∈ (recordCameras []
        ((fun _ _ => [MapFeature.camera (some "camera/5") none none [],
          .cluster (some [1, 2, 3, 4]) (some 20)]) CO_BBOX 17)).map Prod.fst :=
  ⟨(c10_start_above_cap
      (fun _ _ => [.camera (some "camera/5") none none [],
                   .cluster (some [1, 2, 3, 4]) (some 20)]) 17 16 (by omega)).1 0,
   (c10_start_above_cap
      (fun _ _ => [.camera (some "camera/5") none none [],
                   .cluster (some [1, 2, 3, 4]) (some 20)]) 17 16 (by omega)).2
     (some "camera/5") none none [] (by simp) rfl⟩

/-! ## Termination of the frontier -/

/-- The zoom budget left below the cap. -/
def jobGas (max_zoom zoom : Int) : Nat := (max_zoom - zoom).toNat

/-- An upper bound on the number of jobs the frontier can process for a
job at `(bbox, zoom)`: the size of the expansion tree the stubbed upstream
induces, cut off at depth `g`. -/
def treeSize (fetch : Region → Int → List MapFeature) (max_zoom : Int)
    (g : Nat) : Region → Int → Nat :=
  match g with
  | 0 => fun _ _ => 1
  | g + 1 => fun bbox zoom =>
    1 + ((clusterChildren max_zoom zoom (fetch bbox zoom)).map
          (fun c => treeSize fetch max_zoom g c.1 c.2)).sum

theorem treeSize_pos (fetch : Region → Int → List MapFeature) (max_zoom : Int)
    (g : Nat) (bbox : Region) (zoom : Int) :
    1 ≤ treeSize fetch max_zoom g bbox zoom := by
  cases g with
  | zero => simp [treeSize]
  | succ k => simp [treeSize]

/-- The bound assigned to a pending job uses exactly its own gas. -/
def jobMeasure (fetch : Region → Int → List MapFeature) (max_zoom : Int)
    (j : Region × Int) : Nat :=
  treeSize fetch max_zoom (jobGas max_zoom j.2) j.1 j.2

/-- The termination measure of a queue. -/
def queueMeasure (fetch : Region → Int → List MapFeature) (max_zoom : Int)
    (q : List (Region × Int)) : Nat :=
  (q.map (jobMeasure fetch max_zoom)).sum

theorem treeSize_stable (fetch : Region → Int → List MapFeature) (max_zoom : Int) :
    ∀ (g g' : Nat) (bbox : Region) (zoom : Int),
      jobGas max_zoom zoom ≤ g → jobGas max_zoom zoom ≤ g' →
      treeSize fetch max_zoom g bbox zoom = treeSize fetch max_zoom g' bbox zoom := by
  intro g
  induction g with
  | zero =>
    intro g' bbox zoom hg hg'
    have hmz : max_zoom ≤ zoom := by unfold jobGas at hg; omega
    cases g' with
    | zero => rfl
    | succ h =>
      simp only [treeSize]
      rw [clusterChildren_nil_of_le hmz]
      simp
  | succ k ih =>
    intro g' bbox zoom hg hg'
    by_cases hmz : max_zoom ≤ zoom
    · cases g' with
      | zero =>
        simp only [treeSize]
        rw [clusterChildren_nil_of_le hmz]
        simp
      | succ h =>
        simp only [treeSize]
        rw [clusterChildren_nil_of_le hmz]
        simp
    · push_neg at hmz
      have hgas : 1 ≤ jobGas max_zoom zoom := by unfold jobGas; omega
      cases g' with
      | zero => omega
      | succ h =>
        simp only [treeSize]
        congr 1
        apply congrArg
        apply List.map_congr_left
        intro c hc
        have hcz := mem_clusterChildren hc
        have hck : jobGas max_zoom c.2 ≤ k := by
          unfold jobGas at hg ⊢; omega
        have hch : jobGas max_zoom c.2 ≤ h := by
          unfold jobGas at hg' ⊢; omega
        exact ih h c.1 c.2 hck hch

theorem queueMeasure_append (fetch : Region → Int → List MapFeature)
    (max_zoom : Int) (q₁ q₂ : List (Region × Int)) :
    queueMeasure fetch max_zoom (q₁ ++ q₂) =
      queueMeasure fetch max_zoom q₁ + queueMeasure fetch max_zoom q₂ := by
  simp [queueMeasure]

theorem children_measure_lt (fetch : Region → Int → List MapFeature)
    (max_zoom : Int) (bbox : Region) (zoom : Int) :
    queueMeasure fetch max_zoom (clusterChildren max_zoom zoom (fetch bbox zoom)) <
      jobMeasure fetch max_zoom (bbox, zoom) := by
  have h1 : jobMeasure fetch max_zoom (bbox, zoom) = treeSize fetch max_zoom
      (jobGas max_zoom zoom) bbox zoom := rfl
  by_cases hch : clusterChildren max_zoom zoom (fetch bbox zoom) = []
  · have hpos := treeSize_pos fetch max_zoom (jobGas max_zoom zoom) bbox zoom
    rw [hch]
    simp only [queueMeasure, List.map_nil, List.sum_nil]
    omega
  · obtain ⟨c, hc⟩ := List.exists_mem_of_ne_nil _ hch
    have hcz := mem_clusterChildren hc
    have hzoom : zoom < max_zoom := lt_of_lt_of_le hcz.1 hcz.2
    have hgas : jobGas max_zoom zoom = (jobGas max_zoom zoom - 1) + 1 := by
      unfold jobGas; omega
    have hmain : jobMeasure fetch max_zoom (bbox, zoom) =
        1 + queueMeasure fetch max_zoom
          (clusterChildren max_zoom zoom (fetch bbox zoom)) := by
      rw [jobMeasure, hgas]
      simp only [treeSize]
      congr 1
      rw [queueMeasure]
      apply congrArg
      apply List.map_congr_left
      intro d hd
      have hdz := mem_clusterChildren hd
      rw [jobMeasure]
      apply treeSize_stable
      · unfold jobGas; omega
      · exact le_refl _
    omega

theorem stepFrontier_measure_lt (fetch : Region → Int → List MapFeature)
    (max_zoom : Int) {st : FrontierState} (h : st.queue ≠ []) :
    queueMeasure fetch max_zoom (stepFrontier fetch max_zoom st).queue <
      queueMeasure fetch max_zoom st.queue := by
  obtain ⟨cams, q, seen, queries⟩ := st
  cases q with
  | nil => exact absurd rfl h
  | cons j rest =>
    obtain ⟨bbox, zoom⟩ := j
    have hpos := treeSize_pos fetch max_zoom (jobGas max_zoom zoom) bbox zoom
    simp only [stepFrontier]
    split
    · simp only [queueMeasure, List.map_cons, List.sum_cons]
      have : jobMeasure fetch max_zoom (bbox, zoom) = treeSize fetch max_zoom
          (jobGas max_zoom zoom) bbox zoom := rfl
      omega
    · have hlt := children_measure_lt fetch max_zoom bbox zoom
      simp only [queueMeasure, List.map_cons, List.sum_cons, List.map_append,
        List.sum_append]
      have h₁ : jobMeasure fetch max_zoom (bbox, zoom) = treeSize fetch max_zoom
          (jobGas max_zoom zoom) bbox zoom := rfl
      simp only [queueMeasure] at hlt
      omega

theorem runFrontier_isSome_of_measure (fetch : Region → Int → List MapFeature)
    (max_zoom : Int) :
    ∀ (n : Nat) (st : FrontierState),
      queueMeasure fetch max_zoom st.queue ≤ n →
      (runFrontier fetch max_zoom n st).isSome = true := by
  intro n
  induction n with
  | zero =>
    intro st h
    cases hq : st.queue with
    | nil => simp [runFrontier, hq]
    | cons j rest =>
      exfalso
      have hpos := treeSize_pos fetch max_zoom (jobGas max_zoom j.2) j.1 j.2
      rw [hq] at h
      simp only [queueMeasure, List.map_cons, List.sum_cons] at h
      have : jobMeasure fetch max_zoom j = treeSize fetch max_zoom
          (jobGas max_zoom j.2) j.1 j.2 := rfl
      omega
  | succ n ih =>
    intro st h
    by_cases hq : st.queue = []
    · simp [runFrontier, hq]
    · rw [runFrontier, if_neg hq]
      apply ih
      have := stepFrontier_measure_lt fetch max_zoom hq
      omega

/-- C2: for every stubbed upstream and every start and maximum zoom, the
frontier loop terminates — some fuel makes the run complete (reach an
empty queue). -/
theorem c2_terminates (fetch : Region → Int → List MapFeature)
    (start_zoom max_zoom : Int) :
    ∃ fuel : Nat,
      (fetch_all_cameras_with_coords fetch start_zoom max_zoom fuel).isSome = true :=
  ⟨queueMeasure fetch max_zoom (initFrontier start_zoom).queue,
   runFrontier_isSome_of_measure fetch max_zoom _ _ (le_refl _)⟩

end Cotrip
